import Mathlib

/-!
Verification of the tile-fetch/cache/decode core of the mapbox-gl-native
repository against its natural-language specification.

The development shallowly embeds the C++ sources:

- src/include/llmr/util/pbf.hpp: the protocol-buffer wire-format decoder
  (struct pbf).  The C++ object holds two pointers, a cursor named data and
  a limit named end.  We model the byte range as a fixed list buf of bytes
  together with a cursor offset pos; the C++ expression data corresponds to
  offset pos from the start of buf and end corresponds to offset buf.length.
  Thrown C++ exceptions leave the object's fields as they were at the throw
  site, so every operation returns the mutated state alongside an Except:
  the state component is meaningful even on the error path (the source
  relies on this, e.g. skipBytes advances the cursor before checking it).
- src/include/llmr/map/tile_data.hpp: the TileData lifecycle (only the
  header is in the repository snapshot; the transition behaviour is
  modelled from the specification, see stepTile below).
- src/include/mbgl/storage/caching_http_file_source.hpp: the request
  coalescing table (again header-only in the snapshot; modelled from the
  specification, see FileSourceState below).
- src/src/mbgl/style/style_parser.cpp: the minzoom/maxzoom clauses of
  StyleParser::parseBucket.

Machine integers are modelled as Nat with explicit reduction mod 2 ^ w at
the points where the C++ performs T-wide arithmetic.  The C++ shift
(T)(byte & 0x7F) << bitpos is modelled as shifting then reducing mod 2 ^ w;
for bitpos below the width this is exactly the C++ semantics (shifts at or
beyond the width are undefined behaviour in C++, and no theorem below
depends on that region).
-/

namespace llmr

/-- Exception taxonomy of struct pbf (pbf.hpp lines 20 to 24). -/
inductive pbfError where
  | unterminated_varint
  | varint_too_long
  | unknown_field_type
  | end_of_buffer
deriving DecidableEq, Repr

/-- State of a pbf decoder: the byte buffer (the C++ range from the data
pointer passed to the constructor up to end), the cursor offset pos (the
C++ data pointer, as an offset from the start of the range), and the two
header registers value and tag (pbf.hpp lines 40 to 44). -/
structure pbf where
  buf : List Nat
  pos : Nat
  value : Nat
  tag : Nat
deriving DecidableEq, Repr

namespace pbf

/-- Loop body of pbf::varint (pbf.hpp lines 61 to 79).  The C++ for loop
runs while bitpos < 70 and the previous byte had its continuation bit set;
since bitpos steps by 7 from 0, that is at most 10 iterations, counted here
by the structural argument fuel (fuel = (70 - bitpos) / 7 at every call
site, so fuel = 0 exactly when bitpos = 70).  After the loop the C++ throws
varint_too_long_exception when bitpos reached 70 with the continuation bit
still set.  w is the bit width of the accumulator type T. -/
def varintLoop (w : Nat) (p : pbf) (byte result bitpos fuel : Nat) :
    pbf × Except pbfError Nat :=
  match fuel with
  | 0 =>
    if byte &&& 0x80 ≠ 0 then (p, .error .varint_too_long) else (p, .ok result)
  | fuel + 1 =>
    if byte &&& 0x80 ≠ 0 then
      if p.buf.length ≤ p.pos then (p, .error .unterminated_varint)
      else
        let b := p.buf.getD p.pos 0
        varintLoop w { p with pos := p.pos + 1 } b
          (result ||| ((b &&& 0x7F) <<< bitpos % 2 ^ w)) (bitpos + 7) fuel
    else (p, .ok result)

/-- pbf::varint with an accumulator of bit width w (pbf.hpp lines 61 to
79).  The local byte starts at 0x80 so that the loop body runs at least
once, result starts at 0 and bitpos at 0 (hence fuel = 70 / 7 = 10). -/
def varint (w : Nat) (p : pbf) : pbf × Except pbfError Nat :=
  varintLoop w p 0x80 0 0 10

/-- Two's-complement reinterpretation of a w-bit pattern as a signed
value, used to read back results of signed accumulator types. -/
def toSigned (w : Nat) (u : Nat) : Int :=
  if u < 2 ^ (w - 1) then (u : Int) else (u : Int) - 2 ^ w

/-- Arithmetic right shift by one of a w-bit pattern (the C++ n >> 1 on a
signed T holding pattern n: the sign bit is replicated). -/
def sar1 (w : Nat) (n : Nat) : Nat :=
  if n < 2 ^ (w - 1) then n / 2 else n / 2 + 2 ^ (w - 1)

/-- pbf::svarint (pbf.hpp lines 81 to 85): reads a varint n and returns
(n >> 1) xor -(n & 1), computed here on w-bit patterns: -(T)(n & 1) is the
pattern 2 ^ w - (n & 1) reduced mod 2 ^ w (all ones when n is odd, zero
when n is even), and the result pattern is reinterpreted as signed. -/
def svarint (w : Nat) (p : pbf) : pbf × Except pbfError Int :=
  match varint w p with
  | (p1, .error e) => (p1, .error e)
  | (p1, .ok n) =>
    (p1, .ok (toSigned w ((sar1 w n) ^^^ ((2 ^ w - (n &&& 1)) % 2 ^ w))))

/-- pbf::skipBytes (pbf.hpp lines 136 to 141): advances the cursor first
and only then checks it against end, so on failure the cursor is already
past the end of the buffer. -/
def skipBytes (p : pbf) (bytes : Nat) : pbf × Except pbfError Unit :=
  let p1 := { p with pos := p.pos + bytes }
  if p.buf.length < p1.pos then (p1, .error .end_of_buffer) else (p1, .ok ())

/-- pbf::string (pbf.hpp lines 87 to 92): reads a varint length prefix
(default accumulator uint32_t), remembers the cursor, skips the declared
number of bytes, and materializes those bytes (as their numeric codes)
only when the skip succeeded. -/
def string (p : pbf) : pbf × Except pbfError (List Nat) :=
  match varint 32 p with
  | (p1, .error e) => (p1, .error e)
  | (p1, .ok bytes) =>
    let s := (p1.buf.drop p1.pos).take bytes
    match skipBytes p1 bytes with
    | (p2, .error e) => (p2, .error e)
    | (p2, .ok _) => (p2, .ok s)

/-- pbf::float32 (pbf.hpp lines 94 to 99): skips 4 bytes and copies the 4
bytes just skipped.  The IEEE-754 reinterpretation of those bytes is not
modelled; the raw bytes are returned. -/
def float32 (p : pbf) : pbf × Except pbfError (List Nat) :=
  match skipBytes p 4 with
  | (p1, .error e) => (p1, .error e)
  | (p1, .ok _) => (p1, .ok ((p1.buf.drop (p1.pos - 4)).take 4))

/-- pbf::float64 (pbf.hpp lines 101 to 106): skips 8 bytes and copies the
8 bytes just skipped. -/
def float64 (p : pbf) : pbf × Except pbfError (List Nat) :=
  match skipBytes p 8 with
  | (p1, .error e) => (p1, .error e)
  | (p1, .ok _) => (p1, .ok ((p1.buf.drop (p1.pos - 8)).take 8))

/-- pbf::boolean (pbf.hpp lines 108 to 111): skips 1 byte and reads the
byte just skipped. -/
def boolean (p : pbf) : pbf × Except pbfError Nat :=
  match skipBytes p 1 with
  | (p1, .error e) => (p1, .error e)
  | (p1, .ok _) => (p1, .ok (p1.buf.getD (p1.pos - 1) 0))

/-- pbf::next (pbf.hpp lines 51 to 58): while the cursor is before end,
reads one header varint (cast to uint32_t) into value and its high bits
into tag and reports true; at or past end reports false without reading. -/
def next (p : pbf) : pbf × Except pbfError Bool :=
  if p.pos < p.buf.length then
    match varint 32 p with
    | (p1, .error e) => (p1, .error e)
    | (p1, .ok v) => ({ p1 with value := v % 2 ^ 32, tag := v % 2 ^ 32 >>> 3 }, .ok true)
  else (p, .ok false)

/-- pbf::skipValue (pbf.hpp lines 117 to 134): dispatches on the low 3
bits of the header value (the wire type). -/
def skipValue (p : pbf) (val : Nat) : pbf × Except pbfError Unit :=
  match val &&& 0x7 with
  | 0 =>
    match varint 32 p with
    | (p1, .error e) => (p1, .error e)
    | (p1, .ok _) => (p1, .ok ())
  | 1 => skipBytes p 8
  | 2 =>
    match varint 32 p with
    | (p1, .error e) => (p1, .error e)
    | (p1, .ok n) => skipBytes p1 n
  | 5 => skipBytes p 4
  | _ => (p, .error .unknown_field_type)

/-- pbf::skip (pbf.hpp lines 113 to 115). -/
def skip (p : pbf) : pbf × Except pbfError Unit :=
  skipValue p p.value

end pbf

end llmr

namespace llmr.pbf

/-- Helper: the varint loop never changes the buffer, only the cursor and
the returned value. -/
theorem varintLoop_buf_eq (fuel : Nat) : ∀ (w : Nat) (p : pbf) (byte result bitpos : Nat),
    (varintLoop w p byte result bitpos fuel).1.buf = p.buf := by
  induction fuel with
  | zero => intro w p byte result bitpos; unfold varintLoop; split <;> rfl
  | succ fuel ih =>
    intro w p byte result bitpos
    unfold varintLoop
    split
    · split
      · rfl
      · exact ih w _ _ _ _
    · rfl

/-- Helper: the only errors the varint loop produces are the unterminated
and too-long errors. -/
theorem varintLoop_error_mem (fuel : Nat) :
    ∀ (w : Nat) (p : pbf) (byte result bitpos : Nat) (p1 : pbf) (e : pbfError),
    varintLoop w p byte result bitpos fuel = (p1, .error e) →
    e = .unterminated_varint ∨ e = .varint_too_long := by
  induction fuel with
  | zero =>
    intro w p byte result bitpos p1 e h
    unfold varintLoop at h
    split at h
    · exact Or.inr (by cases h; rfl)
    · cases h
  | succ fuel ih =>
    intro w p byte result bitpos p1 e h
    unfold varintLoop at h
    split at h
    · split at h
      · exact Or.inl (by cases h; rfl)
      · exact ih w _ _ _ _ _ _ h
    · cases h

/-- Helper: varint itself never changes the buffer. -/
theorem varint_buf_eq (w : Nat) (p : pbf) : (varint w p).1.buf = p.buf :=
  varintLoop_buf_eq 10 w p 0x80 0 0

/-- Helper: closed form of skipBytes, separating the state update (which
always happens) from the bounds check. -/
theorem skipBytes_eq (p : pbf) (bytes : Nat) :
    skipBytes p bytes =
      ({ p with pos := p.pos + bytes },
        if p.buf.length < p.pos + bytes then .error .end_of_buffer else .ok ()) := by
  simp only [skipBytes]
  split <;> simp_all

/-- C1: every read that consumes a declared number of bytes is bounds
checked.  skipBytes raises the out-of-buffer error exactly when the
declared count exceeds the bytes remaining before end; the length prefix
of string and the fixed 4/8/1-byte reads of float32/float64/boolean and
the fixed or length-delimited cases of skipValue raise it whenever the
declared length exceeds the remaining bytes; and every successful read
returns data drawn entirely from positions strictly before end. -/
theorem c1_bounds_safety (p : pbf) (n : Nat) :
    ((skipBytes p n).2 = .error .end_of_buffer ↔ p.buf.length < p.pos + n) ∧
    (∀ p1 len, varint 32 p = (p1, .ok len) → p1.buf.length < p1.pos + len →
      (string p).2 = .error .end_of_buffer) ∧
    (∀ p2 s, string p = (p2, .ok s) →
      ∃ p1 len, varint 32 p = (p1, .ok len) ∧ p1.pos + len ≤ p1.buf.length ∧
        s = (p1.buf.drop p1.pos).take len ∧ s.length = len ∧
        p2.pos = p1.pos + len ∧ p2.pos ≤ p2.buf.length) ∧
    (p.buf.length < p.pos + 4 → (float32 p).2 = .error .end_of_buffer) ∧
    (∀ p2 bs, float32 p = (p2, .ok bs) → p.pos + 4 ≤ p.buf.length ∧
      bs = (p.buf.drop p.pos).take 4 ∧ p2.pos = p.pos + 4) ∧
    (p.buf.length < p.pos + 8 → (float64 p).2 = .error .end_of_buffer) ∧
    (∀ p2 bs, float64 p = (p2, .ok bs) → p.pos + 8 ≤ p.buf.length ∧
      bs = (p.buf.drop p.pos).take 8 ∧ p2.pos = p.pos + 8) ∧
    (p.buf.length < p.pos + 1 → (boolean p).2 = .error .end_of_buffer) ∧
    (∀ p2 b, boolean p = (p2, .ok b) → p.pos + 1 ≤ p.buf.length ∧
      b = p.buf.getD p.pos 0 ∧ p2.pos = p.pos + 1) ∧
    (n &&& 7 = 1 → p.buf.length < p.pos + 8 → (skipValue p n).2 = .error .end_of_buffer) ∧
    (n &&& 7 = 5 → p.buf.length < p.pos + 4 → (skipValue p n).2 = .error .end_of_buffer) ∧
    (n &&& 7 = 2 → ∀ p1 len, varint 32 p = (p1, .ok len) →
      p1.buf.length < p1.pos + len → (skipValue p n).2 = .error .end_of_buffer) := by
  refine ⟨?_, ?_, ?_, ?_, ?_, ?_, ?_, ?_, ?_, ?_, ?_, ?_⟩
  · rw [skipBytes_eq]
    split <;> simp_all
  · intro p1 len hv hlt
    simp [string, hv, skipBytes_eq, if_pos hlt]
  · intro p2 s hs
    rcases hv : varint 32 p with ⟨p1, r⟩
    cases r with
    | error e => simp [string, hv] at hs
    | ok len =>
      refine ⟨p1, len, rfl, ?_⟩
      simp only [string, hv, skipBytes_eq] at hs
      rcases Nat.lt_or_ge p1.buf.length (p1.pos + len) with hlt | hle
      · rw [if_pos hlt] at hs
        simp at hs
      · rw [if_neg (by omega)] at hs
        simp only [Prod.mk.injEq, Except.ok.injEq] at hs
        obtain ⟨hp2, hsval⟩ := hs
        subst hp2
        subst hsval
        refine ⟨by omega, rfl, ?_, by simp, by simp; omega⟩
        simp only [List.length_take, List.length_drop]
        omega
  · intro hlt
    simp [float32, skipBytes_eq, if_pos hlt]
  · intro p2 bs h
    simp only [float32, skipBytes_eq] at h
    rcases Nat.lt_or_ge p.buf.length (p.pos + 4) with hlt | hle
    · rw [if_pos hlt] at h
      simp at h
    · rw [if_neg (by omega)] at h
      simp only [Prod.mk.injEq, Except.ok.injEq] at h
      obtain ⟨hp2, hb⟩ := h
      subst hp2
      subst hb
      exact ⟨by omega, by simp, by simp⟩
  · intro hlt
    simp [float64, skipBytes_eq, if_pos hlt]
  · intro p2 bs h
    simp only [float64, skipBytes_eq] at h
    rcases Nat.lt_or_ge p.buf.length (p.pos + 8) with hlt | hle
    · rw [if_pos hlt] at h
      simp at h
    · rw [if_neg (by omega)] at h
      simp only [Prod.mk.injEq, Except.ok.injEq] at h
      obtain ⟨hp2, hb⟩ := h
      subst hp2
      subst hb
      exact ⟨by omega, by simp, by simp⟩
  · intro hlt
    simp [boolean, skipBytes_eq, if_pos hlt]
  · intro p2 b h
    simp only [boolean, skipBytes_eq] at h
    rcases Nat.lt_or_ge p.buf.length (p.pos + 1) with hlt | hle
    · rw [if_pos hlt] at h
      simp at h
    · rw [if_neg (by omega)] at h
      simp only [Prod.mk.injEq, Except.ok.injEq] at h
      obtain ⟨hp2, hb⟩ := h
      subst hp2
      subst hb
      exact ⟨by omega, by simp, by simp⟩
  · intro h7 hlt
    have h7x : n &&& 0x7 = 1 := h7
    simp [skipValue, h7x, skipBytes_eq, if_pos hlt]
  · intro h7 hlt
    have h7x : n &&& 0x7 = 5 := h7
    simp [skipValue, h7x, skipBytes_eq, if_pos hlt]
  · intro h7 p1 len hv hlt
    have h7x : n &&& 0x7 = 2 := h7
    simp [skipValue, h7x, hv, skipBytes_eq, if_pos hlt]

/-- C1 witness: concrete instances of each bounds check, covering the
skipBytes equivalence, the string length prefix, the three fixed-width
reads, and the three bounds-checked skipValue cases. -/
theorem c1_bounds_safety_witness :
    (skipBytes ⟨[0], 0, 0, 0⟩ 2).2 = .error .end_of_buffer ∧
    (string ⟨[5, 1], 0, 0, 0⟩).2 = .error .end_of_buffer ∧
    (float32 ⟨[1, 2, 3], 0, 0, 0⟩).2 = .error .end_of_buffer ∧
    (float64 ⟨[1], 0, 0, 0⟩).2 = .error .end_of_buffer ∧
    (boolean ⟨[], 0, 0, 0⟩).2 = .error .end_of_buffer ∧
    (skipValue ⟨[9], 0, 0, 0⟩ 1).2 = .error .end_of_buffer ∧
    (skipValue ⟨[9], 0, 0, 0⟩ 5).2 = .error .end_of_buffer ∧
    (skipValue ⟨[3, 9], 0, 0, 0⟩ 2).2 = .error .end_of_buffer :=
  ⟨(c1_bounds_safety ⟨[0], 0, 0, 0⟩ 2).1.mpr (by decide),
   (c1_bounds_safety ⟨[5, 1], 0, 0, 0⟩ 0).2.1 ⟨[5, 1], 1, 0, 0⟩ 5 (by rfl) (by decide),
   (c1_bounds_safety ⟨[1, 2, 3], 0, 0, 0⟩ 0).2.2.2.1 (by decide),
   (c1_bounds_safety ⟨[1], 0, 0, 0⟩ 0).2.2.2.2.2.1 (by decide),
   (c1_bounds_safety ⟨[], 0, 0, 0⟩ 0).2.2.2.2.2.2.2.1 (by decide),
   (c1_bounds_safety ⟨[9], 0, 0, 0⟩ 1).2.2.2.2.2.2.2.2.2.1 (by decide) (by decide),
   (c1_bounds_safety ⟨[9], 0, 0, 0⟩ 5).2.2.2.2.2.2.2.2.2.2.1 (by decide) (by decide),
   (c1_bounds_safety ⟨[3, 9], 0, 0, 0⟩ 2).2.2.2.2.2.2.2.2.2.2.2 (by decide)
     ⟨[3, 9], 1, 0, 0⟩ 3 (by rfl) (by decide)⟩

/-- C9: when skipBytes fails, the cursor has already been advanced by the
requested count and sits strictly past end, and every subsequent call to
next (however many times the state is pumped through next) reports false
without touching the state. -/
theorem c9_skipBytes_failure_cursor (p : pbf) (b : Nat)
    (h : (skipBytes p b).2 = .error .end_of_buffer) :
    (skipBytes p b).1.pos = p.pos + b ∧
    (skipBytes p b).1.buf.length < (skipBytes p b).1.pos ∧
    (∀ k, (next ((fun q => (next q).1)^[k] (skipBytes p b).1)).2 = .ok false) := by
  have hlt : p.buf.length < p.pos + b := by
    by_contra hc
    rw [skipBytes_eq, if_neg hc] at h
    simp at h
  have h1 : (skipBytes p b).1 = { p with pos := p.pos + b } := by
    rw [skipBytes_eq]
  refine ⟨by rw [h1], by rw [h1]; simpa using hlt, ?_⟩
  intro k
  have hfix : (fun q => (next q).1) (skipBytes p b).1 = (skipBytes p b).1 := by
    rw [h1]
    simp only [next]
    rw [if_neg (by simp; omega)]
  rw [Function.iterate_fixed hfix]
  rw [h1]
  simp only [next]
  rw [if_neg (by simp; omega)]

/-- C9 witness: skipping 5 bytes of a 2-byte buffer fails, leaves the
cursor at 5, and next still reports false after being pumped twice. -/
theorem c9_skipBytes_failure_cursor_witness :
    (skipBytes ⟨[1, 2], 0, 0, 0⟩ 5).1.pos = 0 + 5 ∧
    (skipBytes ⟨[1, 2], 0, 0, 0⟩ 5).1.buf.length < (skipBytes ⟨[1, 2], 0, 0, 0⟩ 5).1.pos ∧
    (next ((fun q => (next q).1)^[2] (skipBytes ⟨[1, 2], 0, 0, 0⟩ 5).1)).2 = .ok false :=
  ⟨(c9_skipBytes_failure_cursor ⟨[1, 2], 0, 0, 0⟩ 5 (by rfl)).1,
   (c9_skipBytes_failure_cursor ⟨[1, 2], 0, 0, 0⟩ 5 (by rfl)).2.1,
   (c9_skipBytes_failure_cursor ⟨[1, 2], 0, 0, 0⟩ 5 (by rfl)).2.2 2⟩

/-- C8: skipValue dispatches on the low 3 bits of the field header: it
raises the unknown-field-type error exactly when those bits are not 0, 1,
2 or 5 (leaving the state untouched), and on success it has advanced the
cursor past exactly one payload of the given wire type: one varint for 0,
8 bytes for 1, a varint length followed by that many bytes for 2, and 4
bytes for 5, never moving the cursor past end. -/
theorem c8_skipValue_wire_types (p : pbf) (val : Nat) :
    ((skipValue p val).2 = .error .unknown_field_type ↔
      ¬(val &&& 7 = 0 ∨ val &&& 7 = 1 ∨ val &&& 7 = 2 ∨ val &&& 7 = 5)) ∧
    (¬(val &&& 7 = 0 ∨ val &&& 7 = 1 ∨ val &&& 7 = 2 ∨ val &&& 7 = 5) →
      skipValue p val = (p, .error .unknown_field_type)) ∧
    (∀ p', skipValue p val = (p', .ok ()) →
      (val &&& 7 = 0 → ∃ n, varint 32 p = (p', .ok n)) ∧
      (val &&& 7 = 1 → p' = { p with pos := p.pos + 8 } ∧ p.pos + 8 ≤ p.buf.length) ∧
      (val &&& 7 = 2 → ∃ p1 n, varint 32 p = (p1, .ok n) ∧
        p' = { p1 with pos := p1.pos + n } ∧ p1.pos + n ≤ p1.buf.length) ∧
      (val &&& 7 = 5 → p' = { p with pos := p.pos + 4 } ∧ p.pos + 4 ≤ p.buf.length)) := by
  have hb : val &&& 7 ≤ 7 := Nat.and_le_right
  have hc : val &&& 7 = 0 ∨ val &&& 7 = 1 ∨ val &&& 7 = 2 ∨ val &&& 7 = 3 ∨
      val &&& 7 = 4 ∨ val &&& 7 = 5 ∨ val &&& 7 = 6 ∨ val &&& 7 = 7 := by omega
  rcases hc with hm | hm | hm | hm | hm | hm | hm | hm
  · -- wire type 0: a varint payload
    rcases hv : varint 32 p with ⟨p1, r⟩
    cases r with
    | error e =>
      have he := varintLoop_error_mem 10 32 p 0x80 0 0 p1 e hv
      refine ⟨?_, ?_, ?_⟩
      · simp only [skipValue, hm, hv]
        constructor
        · intro h
          rcases he with rfl | rfl <;> simp at h
        · intro h
          exact absurd (by simp) h
      · intro h
        exact absurd (Or.inl hm) h
      · intro p' hp'
        simp only [skipValue, hm, hv] at hp'
        simp at hp'
    | ok n =>
      refine ⟨?_, ?_, ?_⟩
      · simp only [skipValue, hm, hv]
        simp [hm]
      · intro h
        exact absurd (Or.inl hm) h
      · intro p' hp'
        simp only [skipValue, hm, hv] at hp'
        simp only [Prod.mk.injEq] at hp'
        obtain ⟨rfl, -⟩ := hp'
        exact ⟨fun _ => ⟨n, rfl⟩, fun h1 => by omega, fun h2 => by omega, fun h5 => by omega⟩
  · -- wire type 1: an 8-byte payload
    refine ⟨?_, ?_, ?_⟩
    · simp only [skipValue, hm, skipBytes_eq]
      split <;> simp [hm]
    · intro h
      exact absurd (Or.inr (Or.inl hm)) h
    · intro p' hp'
      simp only [skipValue, hm, skipBytes_eq] at hp'
      rcases Nat.lt_or_ge p.buf.length (p.pos + 8) with hlt | hle
      · rw [if_pos hlt] at hp'
        simp at hp'
      · rw [if_neg (by omega)] at hp'
        simp only [Prod.mk.injEq] at hp'
        obtain ⟨hp, -⟩ := hp'
        exact ⟨fun h0 => by omega, fun _ => ⟨hp.symm, by omega⟩,
          fun h2 => by omega, fun h5 => by omega⟩
  · -- wire type 2: a varint length then that many bytes
    rcases hv : varint 32 p with ⟨p1, r⟩
    cases r with
    | error e =>
      have he := varintLoop_error_mem 10 32 p 0x80 0 0 p1 e hv
      refine ⟨?_, ?_, ?_⟩
      · simp only [skipValue, hm, hv]
        constructor
        · intro h
          rcases he with rfl | rfl <;> simp at h
        · intro h
          exact absurd (by simp) h
      · intro h
        exact absurd (Or.inr (Or.inr (Or.inl hm))) h
      · intro p' hp'
        simp only [skipValue, hm, hv] at hp'
        simp at hp'
    | ok n =>
      refine ⟨?_, ?_, ?_⟩
      · simp only [skipValue, hm, hv, skipBytes_eq]
        split <;> simp [hm]
      · intro h
        exact absurd (Or.inr (Or.inr (Or.inl hm))) h
      · intro p' hp'
        simp only [skipValue, hm, hv, skipBytes_eq] at hp'
        rcases Nat.lt_or_ge p1.buf.length (p1.pos + n) with hlt | hle
        · rw [if_pos hlt] at hp'
          simp at hp'
        · rw [if_neg (by omega)] at hp'
          simp only [Prod.mk.injEq] at hp'
          obtain ⟨hp, -⟩ := hp'
          exact ⟨fun h0 => by omega, fun h1 => by omega,
            fun _ => ⟨p1, n, rfl, hp.symm, by omega⟩, fun h5 => by omega⟩
  · -- wire type 3: unknown
    refine ⟨by simp [skipValue, hm], fun _ => by simp [skipValue, hm], ?_⟩
    intro p' hp'
    simp [skipValue, hm] at hp'
  · -- wire type 4: unknown
    refine ⟨by simp [skipValue, hm], fun _ => by simp [skipValue, hm], ?_⟩
    intro p' hp'
    simp [skipValue, hm] at hp'
  · -- wire type 5: a 4-byte payload
    refine ⟨?_, ?_, ?_⟩
    · simp only [skipValue, hm, skipBytes_eq]
      split <;> simp [hm]
    · intro h
      exact absurd (Or.inr (Or.inr (Or.inr hm))) h
    · intro p' hp'
      simp only [skipValue, hm, skipBytes_eq] at hp'
      rcases Nat.lt_or_ge p.buf.length (p.pos + 4) with hlt | hle
      · rw [if_pos hlt] at hp'
        simp at hp'
      · rw [if_neg (by omega)] at hp'
        simp only [Prod.mk.injEq] at hp'
        obtain ⟨hp, -⟩ := hp'
        exact ⟨fun h0 => by omega, fun h1 => by omega, fun h2 => by omega,
          fun _ => ⟨hp.symm, by omega⟩⟩
  · -- wire type 6: unknown
    refine ⟨by simp [skipValue, hm], fun _ => by simp [skipValue, hm], ?_⟩
    intro p' hp'
    simp [skipValue, hm] at hp'
  · -- wire type 7: unknown
    refine ⟨by simp [skipValue, hm], fun _ => by simp [skipValue, hm], ?_⟩
    intro p' hp'
    simp [skipValue, hm] at hp'

/-- C8 witness: concrete instances covering each wire type: the varint
and length-delimited wire types are accepted (no unknown-field-type
error), the two fixed-width types land the cursor exactly 8 and 4 bytes
ahead within bounds, and wire type 3 is rejected with the state
untouched. -/
theorem c8_skipValue_wire_types_witness :
    (skipValue ⟨[0x83, 0x01, 9], 0, 0, 0⟩ 0).2 ≠ .error .unknown_field_type ∧
    ((⟨[9, 9, 9, 9, 9, 9, 9, 9], 8, 0, 0⟩ : pbf) =
        { (⟨[9, 9, 9, 9, 9, 9, 9, 9], 0, 0, 0⟩ : pbf) with pos := 0 + 8 } ∧
      0 + 8 ≤ ([9, 9, 9, 9, 9, 9, 9, 9] : List Nat).length) ∧
    (skipValue ⟨[2, 7, 7], 0, 0, 0⟩ 2).2 ≠ .error .unknown_field_type ∧
    ((⟨[9, 9, 9, 9], 4, 0, 0⟩ : pbf) =
        { (⟨[9, 9, 9, 9], 0, 0, 0⟩ : pbf) with pos := 0 + 4 } ∧
      0 + 4 ≤ ([9, 9, 9, 9] : List Nat).length) ∧
    skipValue ⟨[], 0, 0, 0⟩ 3 = (⟨[], 0, 0, 0⟩, .error .unknown_field_type) :=
  ⟨fun h => ((c8_skipValue_wire_types ⟨[0x83, 0x01, 9], 0, 0, 0⟩ 0).1.mp h)
      (Or.inl (by decide)),
   ((c8_skipValue_wire_types ⟨[9, 9, 9, 9, 9, 9, 9, 9], 0, 0, 0⟩ 1).2.2
      ⟨[9, 9, 9, 9, 9, 9, 9, 9], 8, 0, 0⟩ (by rfl)).2.1 (by decide),
   fun h => ((c8_skipValue_wire_types ⟨[2, 7, 7], 0, 0, 0⟩ 2).1.mp h)
      (Or.inr (Or.inr (Or.inl (by decide)))),
   ((c8_skipValue_wire_types ⟨[9, 9, 9, 9], 0, 0, 0⟩ 5).2.2
      ⟨[9, 9, 9, 9], 4, 0, 0⟩ (by rfl)).2.2.2 (by decide),
   (c8_skipValue_wire_types ⟨[], 0, 0, 0⟩ 3).2.1 (by decide)⟩

/-- Helper: when the next fuel bytes at the cursor all carry the
continuation bit, the varint loop runs out of width and reports the
too-long error, whatever the accumulator width. -/
theorem varintLoop_all_cont_too_long :
    ∀ (k : Nat) (w : Nat) (p : pbf) (byte result bitpos : Nat),
    byte &&& 0x80 ≠ 0 →
    (∀ i, i < k → p.pos + i < p.buf.length ∧ (p.buf.getD (p.pos + i) 0) &&& 0x80 ≠ 0) →
    (varintLoop w p byte result bitpos k).2 = .error .varint_too_long := by
  intro k
  induction k with
  | zero =>
    intro w p byte result bitpos hbyte _
    simp [varintLoop, hbyte]
  | succ k ih =>
    intro w p byte result bitpos hbyte hall
    have h0 := hall 0 (Nat.succ_pos k)
    simp only [Nat.add_zero] at h0
    unfold varintLoop
    rw [if_pos hbyte, if_neg (by omega)]
    refine ih w _ _ _ _ h0.2 (fun i hi => ?_)
    show p.pos + 1 + i < p.buf.length ∧ (p.buf.getD (p.pos + 1 + i) 0) &&& 0x80 ≠ 0
    have h := hall (i + 1) (by omega)
    have e : p.pos + 1 + i = p.pos + (i + 1) := by omega
    rw [e]
    exact h

/-- Helper: when fewer than fuel bytes remain before end and every byte
from the cursor to end carries the continuation bit, the varint loop
walks off the end of the buffer and reports the unterminated error. -/
theorem varintLoop_all_cont_unterminated :
    ∀ (k : Nat) (w : Nat) (p : pbf) (byte result bitpos : Nat),
    1 ≤ k →
    byte &&& 0x80 ≠ 0 →
    p.buf.length < p.pos + k →
    (∀ j, p.pos ≤ j → j < p.buf.length → (p.buf.getD j 0) &&& 0x80 ≠ 0) →
    (varintLoop w p byte result bitpos k).2 = .error .unterminated_varint := by
  intro k
  induction k with
  | zero => intro w p byte result bitpos h1; omega
  | succ k ih =>
    intro w p byte result bitpos _ hbyte hshort hall
    unfold varintLoop
    rw [if_pos hbyte]
    by_cases hend : p.buf.length ≤ p.pos
    · rw [if_pos hend]
    · rw [if_neg hend]
      have hk : 1 ≤ k := by omega
      refine ih w _ _ _ _ hk (hall p.pos (Nat.le_refl _) (by omega)) (by simp; omega)
        (fun j hj1 hj2 => ?_)
      exact hall j (by simp at hj1; omega) (by simpa using hj2)

/-- C3 counterexample: with a 32-bit accumulator and the 6-byte buffer of
five continuation bytes followed by a terminator, the claim demands the
too-long error (the terminating byte is not within the claimed 5-byte
maximum width for a 32-bit T), but pbf::varint succeeds: its loop limit is
bitpos below 70, i.e. 10 bytes, independent of T. -/
theorem c3_counterexample_six_byte_varint_32bit :
    varint 32 ⟨[0x80, 0x80, 0x80, 0x80, 0x80, 0x00], 0, 0, 0⟩ =
      (⟨[0x80, 0x80, 0x80, 0x80, 0x80, 0x00], 6, 0, 0⟩, .ok 0) := rfl

/-- C3 amended: for every accumulator width, pbf::varint fails with
varint_too_long_exception when the 10 bytes at the cursor (the loop limit
bitpos below 70 is independent of T) all have the continuation bit set,
and fails with unterminated_varint_exception when the cursor reaches end
before a terminating byte, i.e. fewer than 10 bytes remain and every
remaining byte has the continuation bit set. -/
theorem c3_varint_length_errors (w : Nat) (p : pbf) :
    ((∀ i, i < 10 → p.pos + i < p.buf.length ∧
        (p.buf.getD (p.pos + i) 0) &&& 0x80 ≠ 0) →
      (varint w p).2 = .error .varint_too_long) ∧
    (p.buf.length < p.pos + 10 →
      (∀ j, p.pos ≤ j → j < p.buf.length → (p.buf.getD j 0) &&& 0x80 ≠ 0) →
      (varint w p).2 = .error .unterminated_varint) :=
  ⟨fun hall => varintLoop_all_cont_too_long 10 w p 0x80 0 0 (by decide) hall,
   fun hshort hall => varintLoop_all_cont_unterminated 10 w p 0x80 0 0
     (by omega) (by decide) hshort hall⟩

/-- C3 amended witness: ten continuation bytes raise the too-long error
and a single continuation byte raises the unterminated error, both with
the default 32-bit accumulator. -/
theorem c3_varint_length_errors_witness :
    (varint 32 ⟨List.replicate 10 0x80, 0, 0, 0⟩).2 = .error .varint_too_long ∧
    (varint 32 ⟨[0x80], 0, 0, 0⟩).2 = .error .unterminated_varint :=
  ⟨(c3_varint_length_errors 32 ⟨List.replicate 10 0x80, 0, 0, 0⟩).1 (by decide),
   (c3_varint_length_errors 32 ⟨[0x80], 0, 0, 0⟩).2 (by decide) (by decide)⟩

/-- Standard base-128 continuation-bit varint encoding of an unsigned
integer (the encoding that pbf::varint decodes): 7 payload bits per byte,
little-endian groups, continuation bit 0x80 on every byte but the last. -/
def varintEncode (v : Nat) : List Nat :=
  if h : v < 128 then [v] else (v % 128 + 128) :: varintEncode (v / 128)
termination_by v
decreasing_by exact Nat.div_lt_self (by omega) (by norm_num)

/-- Zig-zag encoding of a signed integer (the encoding that pbf::svarint
undoes): nonnegative z maps to 2z, negative z maps to -2z - 1. -/
def zigzag (z : Int) : Nat :=
  if 0 ≤ z then 2 * z.toNat else 2 * (-z).toNat - 1

/-- Helper: unfolding of varintEncode on a small value. -/
theorem varintEncode_lt {v : Nat} (h : v < 128) : varintEncode v = [v] := by
  unfold varintEncode
  rw [dif_pos h]

/-- Helper: unfolding of varintEncode on a large value. -/
theorem varintEncode_ge {v : Nat} (h : 128 ≤ v) :
    varintEncode v = (v % 128 + 128) :: varintEncode (v / 128) := by
  conv_lhs => rw [varintEncode]
  rw [dif_neg (by omega)]

/-- Helper: a value below 2 to the 7k encodes in at most k bytes. -/
theorem varintEncode_length_le :
    ∀ (k v : Nat), 1 ≤ k → v < 2 ^ (7 * k) → (varintEncode v).length ≤ k := by
  intro k
  induction k with
  | zero => omega
  | succ k ih =>
    intro v _ hv
    by_cases h128 : v < 128
    · rw [varintEncode_lt h128]
      simp
    · rw [varintEncode_ge (by omega)]
      have hk : 1 ≤ k := by
        by_contra hc
        have : k = 0 := by omega
        subst this
        norm_num at hv
        omega
      have hdiv : v / 128 < 2 ^ (7 * k) := by
        have h1 : v < 2 ^ (7 * k) * 128 := by
          have : 7 * (k + 1) = 7 * k + 7 := by ring
          rw [this, Nat.pow_add] at hv
          norm_num at hv
          omega
        omega
      have := ih (v / 128) hk hdiv
      simpa using this

/-- Helper: a byte below 128 has the continuation bit clear. -/
theorem byte_cont_clear {x : Nat} (h : x < 128) : x &&& 0x80 = 0 := by
  apply Nat.eq_of_testBit_eq
  intro i
  rw [Nat.testBit_and, (by norm_num : (0x80 : Nat) = 2 ^ 7), Nat.testBit_two_pow]
  have h7 : x < 2 ^ 7 := by
    simp only [show (2 : Nat) ^ 7 = 128 by norm_num]
    exact h
  rcases eq_or_ne 7 i with rfl | hne
  · simp [Nat.testBit_lt_two_pow h7]
  · simp [hne]

/-- Helper: a byte in the range 128 to 255 has the continuation bit set. -/
theorem byte_cont_set {x : Nat} (h1 : 128 ≤ x) (h2 : x < 256) : x &&& 0x80 ≠ 0 := by
  intro hz
  have h7 : x.testBit 7 = false := by
    have hc : (x &&& 0x80).testBit 7 = (0 : Nat).testBit 7 := by rw [hz]
    rw [Nat.testBit_and, (by norm_num : (0x80 : Nat) = 2 ^ 7), Nat.testBit_two_pow] at hc
    simpa using hc
  rw [Nat.testBit_to_div_mod] at h7
  simp at h7
  omega

/-- Helper: masking with 0x7F is reduction mod 128. -/
theorem mask_0x7F (x : Nat) : x &&& 0x7F = x % 128 := by
  have h := Nat.and_pow_two_sub_one_eq_mod x 7
  norm_num at h
  exact h

/-- Helper: the two 7-bit chunks of a value, shifted into consecutive
positions, recombine to the value by bitwise or (the low chunk lives
strictly below the position of the high chunk). -/
theorem varint_chunk_merge (v bitpos : Nat) :
    ((v % 128) <<< bitpos) ||| ((v / 128) <<< (bitpos + 7)) = v <<< bitpos := by
  rw [Nat.shiftLeft_eq, Nat.shiftLeft_eq, Nat.shiftLeft_eq]
  have hm : v % 128 < 128 := Nat.mod_lt _ (by norm_num)
  have hlt : (v % 128) * 2 ^ bitpos < 2 ^ (bitpos + 7) := by
    have h2 : 2 ^ (bitpos + 7) = 2 ^ bitpos * 128 := by
      rw [Nat.pow_add]
    have hp := Nat.two_pow_pos bitpos
    nlinarith
  have key := Nat.mul_add_lt_is_or hlt (v / 128)
  rw [Nat.lor_comm, Nat.mul_comm (v / 128) (2 ^ (bitpos + 7)), ← key]
  have h2 : 2 ^ (bitpos + 7) = 128 * 2 ^ bitpos := by
    rw [Nat.pow_add]
    ring
  rw [h2]
  have hv := Nat.div_add_mod v 128
  nlinarith

/-- Helper: decomposing a list at a cursor where a drop is known to be a
cons: the cursor is in range, the byte at the cursor is the head, and
dropping one more gives the tail. -/
theorem drop_cons_head_tail {l : List Nat} {n a : Nat} {t : List Nat}
    (h : l.drop n = a :: t) :
    n < l.length ∧ l.getD n 0 = a ∧ l.drop (n + 1) = t := by
  have hn : n < l.length := by
    by_contra hc
    rw [List.drop_eq_nil_of_le (by omega)] at h
    cases h
  have h2 := List.drop_eq_getElem_cons (l := l) (n := n) hn
  rw [h] at h2
  injection h2 with ha ht
  refine ⟨hn, ?_, ht.symm⟩
  rw [List.getD_eq_getElem?_getD, List.getElem?_eq_getElem hn]
  simp [ha]

/-- Helper: complementing a w-bit pattern: xor with all ones is
subtraction from all ones. -/
theorem xor_all_ones {w x : Nat} (h : x < 2 ^ w) :
    x ^^^ (2 ^ w - 1) = 2 ^ w - 1 - x := by
  have h1 : x ^^^ (2 ^ w - 1) = ((BitVec.ofNat w x) ^^^ BitVec.allOnes w).toNat := by
    rw [BitVec.toNat_xor, BitVec.toNat_ofNat, BitVec.toNat_allOnes, Nat.mod_eq_of_lt h]
  rw [h1, BitVec.xor_allOnes, BitVec.toNat_not, BitVec.toNat_ofNat, Nat.mod_eq_of_lt h]

/-- Helper: the varint loop, run over the encoding of v (followed by
anything), consumes exactly the encoding and accumulates v shifted to the
current bit position, provided the encoding fits in the remaining loop
iterations and the shifted value fits in the accumulator width. -/
theorem varintLoop_encode (w : Nat) (v : Nat) :
    ∀ (p : pbf) (rest : List Nat) (byte result bitpos fuel : Nat),
    byte &&& 0x80 ≠ 0 →
    7 * fuel + bitpos = 70 →
    p.buf.drop p.pos = varintEncode v ++ rest →
    bitpos + 7 * (varintEncode v).length ≤ 70 →
    v * 2 ^ bitpos < 2 ^ w →
    varintLoop w p byte result bitpos fuel =
      ({ p with pos := p.pos + (varintEncode v).length }, .ok (result ||| v <<< bitpos)) := by
  induction v using Nat.strong_induction_on with
  | _ v ih =>
  intro p rest byte result bitpos fuel hbyte hfuel hdrop hlen hfit
  by_cases h128 : v < 128
  · rw [varintEncode_lt h128] at hdrop hlen ⊢
    obtain ⟨hpos, hb, -⟩ := drop_cons_head_tail hdrop
    obtain ⟨fuel, rfl⟩ : ∃ f, fuel = f + 1 := by
      cases fuel with
      | zero => simp at hlen; omega
      | succ f => exact ⟨f, rfl⟩
    have hmask : v &&& 0x7F = v := by
      rw [mask_0x7F]
      exact Nat.mod_eq_of_lt h128
    have hshift : v <<< bitpos % 2 ^ w = v <<< bitpos := by
      apply Nat.mod_eq_of_lt
      rw [Nat.shiftLeft_eq]
      exact hfit
    have hcont : ¬(v &&& 0x80 ≠ 0) := by simp [byte_cont_clear h128]
    unfold varintLoop
    rw [if_pos hbyte, if_neg (by omega)]
    simp only [hb]
    cases fuel with
    | zero =>
      unfold varintLoop
      rw [if_neg hcont, hmask, hshift]
      simp
    | succ f =>
      unfold varintLoop
      rw [if_neg hcont, hmask, hshift]
      simp
  · push_neg at h128
    rw [varintEncode_ge h128] at hdrop hlen ⊢
    rw [List.cons_append] at hdrop
    obtain ⟨hpos, hb, htail⟩ := drop_cons_head_tail hdrop
    obtain ⟨fuel, rfl⟩ : ∃ f, fuel = f + 1 := by
      cases fuel with
      | zero => simp at hlen; omega
      | succ f => exact ⟨f, rfl⟩
    have hbcont : (v % 128 + 128) &&& 0x80 ≠ 0 :=
      byte_cont_set (by omega) (by have := Nat.mod_lt v (show 0 < 128 by norm_num); omega)
    have hmask : (v % 128 + 128) &&& 0x7F = v % 128 := by
      rw [mask_0x7F]
      omega
    have hchunk : (v % 128) <<< bitpos % 2 ^ w = (v % 128) <<< bitpos := by
      apply Nat.mod_eq_of_lt
      rw [Nat.shiftLeft_eq]
      calc (v % 128) * 2 ^ bitpos ≤ v * 2 ^ bitpos :=
            Nat.mul_le_mul_right _ (Nat.mod_le _ _)
        _ < 2 ^ w := hfit
    have hdiv : v / 128 < v := Nat.div_lt_self (by omega) (by norm_num)
    have hfit2 : v / 128 * 2 ^ (bitpos + 7) < 2 ^ w := by
      calc v / 128 * 2 ^ (bitpos + 7) = v / 128 * 128 * 2 ^ bitpos := by
            rw [Nat.pow_add]
            ring
        _ ≤ v * 2 ^ bitpos := Nat.mul_le_mul_right _ (Nat.div_mul_le_self v 128)
        _ < 2 ^ w := hfit
    unfold varintLoop
    rw [if_pos hbyte, if_neg (by omega)]
    simp only [hb, hmask, hchunk]
    have happ := ih (v / 128) hdiv { p with pos := p.pos + 1 } rest (v % 128 + 128)
      (result ||| (v % 128) <<< bitpos) (bitpos + 7) fuel hbcont (by omega)
      (by simpa using htail) (by simp at hlen ⊢; omega) hfit2
    rw [happ]
    simp only [Prod.mk.injEq, Except.ok.injEq]
    constructor
    · show ({ p with pos := (p.pos + 1) + (varintEncode (v / 128)).length } : pbf) = _
      simp only [List.length_cons]
      have he : (p.pos + 1) + (varintEncode (v / 128)).length =
          p.pos + ((varintEncode (v / 128)).length + 1) := by omega
      rw [he]
    · rw [Nat.lor_assoc, varint_chunk_merge]

/-- Helper: decoding the varint encoding of any v below 2 to the 35 with
an accumulator of width at least 35 returns v and consumes exactly the
encoding. -/
theorem varint_decode_encode (w v : Nat) (rest : List Nat) (value0 tag0 : Nat)
    (hw : 35 ≤ w) (hv : v < 2 ^ 35) :
    varint w ⟨varintEncode v ++ rest, 0, value0, tag0⟩ =
      (⟨varintEncode v ++ rest, (varintEncode v).length, value0, tag0⟩, .ok v) := by
  have hlen : (varintEncode v).length ≤ 5 := by
    apply varintEncode_length_le 5 v (by norm_num)
    have h35 : 7 * 5 = 35 := by norm_num
    rw [h35]
    exact hv
  have hfit : v * 2 ^ 0 < 2 ^ w := by
    have hle : (2 : Nat) ^ 35 ≤ 2 ^ w := Nat.pow_le_pow_right (by norm_num) hw
    simpa using lt_of_lt_of_le hv hle
  have h := varintLoop_encode w v ⟨varintEncode v ++ rest, 0, value0, tag0⟩ rest
    0x80 0 0 10 (by decide) (by norm_num) (by simp) (by omega) hfit
  unfold varint
  rw [h]
  simp

/-- Helper: the svarint post-processing of pbf.hpp line 84 inverts zig-zag
encoding on every signed value of magnitude below 2 to the 34, for
accumulator widths of at least 36 bits. -/
theorem svarint_post_zigzag {w : Nat} (hw : 36 ≤ w) {z : Int}
    (h1 : -2 ^ 34 ≤ z) (h2 : z < 2 ^ 34) :
    toSigned w ((sar1 w (zigzag z)) ^^^ ((2 ^ w - (zigzag z &&& 1)) % 2 ^ w)) = z := by
  have e34 : (2 : Int) ^ 34 = 17179869184 := by norm_num
  have hpow35 : (2 : Nat) ^ 35 = 2 * 2 ^ 34 := by
    rw [Nat.pow_succ]
    ring
  have hple : (2 : Nat) ^ 35 ≤ 2 ^ (w - 1) :=
    Nat.pow_le_pow_right (by norm_num) (by omega)
  have hpw : (2 : Nat) ^ w = 2 ^ (w - 1) * 2 := by
    rw [← Nat.pow_succ]
    congr 1
    omega
  by_cases hz : 0 ≤ z
  · have hzz : zigzag z = 2 * z.toNat := by
      unfold zigzag
      rw [if_pos hz]
    have hm : z.toNat < 2 ^ 34 := by
      have : (2 : Int) ^ 34 = ((2 ^ 34 : Nat) : Int) := by norm_num
      omega
    rw [hzz]
    have hpar : 2 * z.toNat &&& 1 = 0 := by
      rw [Nat.and_one_is_mod, Nat.mul_mod_right]
    rw [hpar, Nat.sub_zero, Nat.mod_self, Nat.xor_zero]
    have hsar : sar1 w (2 * z.toNat) = z.toNat := by
      unfold sar1
      rw [if_pos (by omega)]
      omega
    rw [hsar]
    unfold toSigned
    rw [if_pos (by omega)]
    exact Int.toNat_of_nonneg hz
  · push_neg at hz
    have hm0 : (-z).toNat = (-z).toNat := rfl
    have hmz : ((((-z).toNat) : Int)) = -z := Int.toNat_of_nonneg (by omega)
    have hm1 : 1 ≤ (-z).toNat := by omega
    have hm2 : (-z).toNat ≤ 2 ^ 34 := by
      have : (2 : Int) ^ 34 = ((2 ^ 34 : Nat) : Int) := by norm_num
      omega
    have hzz : zigzag z = 2 * (-z).toNat - 1 := by
      unfold zigzag
      rw [if_neg (by omega)]
    rw [hzz]
    have hpar : 2 * (-z).toNat - 1 &&& 1 = 1 := by
      rw [Nat.and_one_is_mod]
      omega
    rw [hpar]
    have hmod : (2 ^ w - 1) % 2 ^ w = 2 ^ w - 1 := by
      apply Nat.mod_eq_of_lt
      have := Nat.two_pow_pos w
      omega
    rw [hmod]
    have hsar : sar1 w (2 * (-z).toNat - 1) = (-z).toNat - 1 := by
      unfold sar1
      rw [if_pos (by omega)]
      omega
    rw [hsar]
    rw [xor_all_ones (by omega)]
    unfold toSigned
    rw [if_neg (by omega)]
    have hcast2 : ((2 : Int) ^ w) = ((2 ^ w : Nat) : Int) := by push_cast; ring
    rw [hcast2]
    omega

/-- C2: decoding round-trip.  For every unsigned v below 2 to the 35, the
base-128 continuation-bit varint encoding of v decodes back to v through
pbf::varint for any accumulator of width at least 35 (the value fits); and
for every signed z of magnitude below 2 to the 34, zig-zag encoding
followed by pbf::svarint (which computes (n >> 1) xor -(n & 1)) returns z
for any accumulator of width at least 36.  In both cases the cursor ends
exactly past the encoding. -/
theorem c2_varint_zigzag_roundtrip :
    (∀ (w v : Nat) (rest : List Nat) (value0 tag0 : Nat), 35 ≤ w → v < 2 ^ 35 →
      varint w ⟨varintEncode v ++ rest, 0, value0, tag0⟩ =
        (⟨varintEncode v ++ rest, (varintEncode v).length, value0, tag0⟩, .ok v)) ∧
    (∀ (w : Nat) (z : Int) (rest : List Nat) (value0 tag0 : Nat), 36 ≤ w →
      -2 ^ 34 ≤ z → z < 2 ^ 34 →
      svarint w ⟨varintEncode (zigzag z) ++ rest, 0, value0, tag0⟩ =
        (⟨varintEncode (zigzag z) ++ rest, (varintEncode (zigzag z)).length, value0, tag0⟩,
          .ok z)) := by
  constructor
  · intro w v rest value0 tag0 hw hv
    exact varint_decode_encode w v rest value0 tag0 hw hv
  · intro w z rest value0 tag0 hw h1 h2
    have hzz : zigzag z < 2 ^ 35 := by
      have e34 : (2 : Int) ^ 34 = 17179869184 := by norm_num
      unfold zigzag
      split <;> norm_num <;> omega
    have hv := varint_decode_encode w (zigzag z) rest value0 tag0 (by omega) hzz
    simp only [svarint, hv]
    rw [svarint_post_zigzag hw h1 h2]

/-- C2 witness: 300 encodes as the two bytes 0xAC 0x02 and decodes back to
300 with a 64-bit accumulator; -3 zig-zag encodes to 5 and svarint decodes
it back to -3. -/
theorem c2_varint_zigzag_roundtrip_witness :
    varintEncode 300 = [0xAC, 0x02] ∧
    varint 64 ⟨varintEncode 300 ++ [7], 0, 0, 0⟩ =
      (⟨varintEncode 300 ++ [7], (varintEncode 300).length, 0, 0⟩, .ok 300) ∧
    zigzag (-3) = 5 ∧
    svarint 64 ⟨varintEncode (zigzag (-3)) ++ [], 0, 0, 0⟩ =
      (⟨varintEncode (zigzag (-3)) ++ [], (varintEncode (zigzag (-3))).length, 0, 0⟩,
        .ok (-3)) :=
  ⟨by rw [varintEncode_ge (by norm_num), varintEncode_lt (by norm_num)],
   c2_varint_zigzag_roundtrip.1 64 300 [7] 0 0 (by norm_num) (by norm_num),
   by decide,
   c2_varint_zigzag_roundtrip.2 64 (-3) [] 0 0 (by norm_num) (by norm_num) (by norm_num)⟩

/-- C6: the 1-byte buffer 0x80 (continuation bit set, nothing following)
makes varint with a 32-bit accumulator raise the unterminated-varint
error; the cursor has consumed the lone byte. -/
theorem c6_unterminated_single_0x80 :
    varint 32 ⟨[0x80], 0, 0, 0⟩ = (⟨[0x80], 1, 0, 0⟩, .error .unterminated_varint) := by
  rfl

/-- C7: the buffer 0x05 followed by the character codes of hello, read via
pbf::string, yields hello and leaves the cursor past the 5 payload bytes
(position 6, just after the length prefix plus payload). -/
theorem c7_string_hello :
    string ⟨[0x05, 104, 101, 108, 108, 111], 0, 0, 0⟩ =
      (⟨[0x05, 104, 101, 108, 108, 111], 6, 0, 0⟩,
        .ok (("hello".toList).map Char.toNat)) := by
  rfl

end llmr.pbf

namespace llmr.TileData

/-- TileData lifecycle states (tile_data.hpp lines 48 to 55). -/
inductive State where
  | invalid
  | initial
  | loading
  | loaded
  | parsed
  | obsolete
deriving DecidableEq, Repr

/-- Events driving the lifecycle: the three member functions declared at
tile_data.hpp lines 61 to 63 plus the two outcomes of the asynchronous
request-completion callback and the two outcomes of parse. -/
inductive Event where
  | request
  | completeSuccess
  | completeFailure
  | parseOk
  | parseFail
  | cancel
deriving DecidableEq, Repr

/-- Modelled from the spec: the bodies of TileData::request, TileData::parse,
TileData::cancel and the completion callback live in tile_data.cpp, which is
not part of the repository snapshot (only the header tile_data.hpp is).
The transition function follows the contract of specification section 4.1:
request is valid only from initial and moves to loading; a completion
callback on an already obsolete tile discards the payload silently; a
successful completion moves loading to loaded, a failed one moves to
obsolete; parse is valid only from loaded, moving to parsed on success and
to obsolete on a decode failure; cancel moves to obsolete from any state
and is idempotent; invalid usages are defensively rejected as no-ops
(specification section 7). -/
def stepTile : State → Event → State
  | .initial, .request => .loading
  | .obsolete, _ => .obsolete
  | .loading, .completeSuccess => .loaded
  | .loading, .completeFailure => .obsolete
  | .loaded, .parseOk => .parsed
  | .loaded, .parseFail => .obsolete
  | _, .cancel => .obsolete
  | s, _ => s

/-- Rank of a state in the monotone order initial, loading, loaded,
parsed (invalid sits below initial; obsolete is the exceptional sink and
is never compared through this rank). -/
def stateRank : State → Nat
  | .invalid => 0
  | .initial => 1
  | .loading => 2
  | .loaded => 3
  | .parsed => 4
  | .obsolete => 5

/-- C4: lifecycle monotonicity.  No transition leaves obsolete; parsed is
entered only from loaded by a successful parse; every state can move to
obsolete (cancel does it); and every transition either goes to obsolete or
is monotone in the order initial, loading, loaded, parsed. -/
theorem c4_lifecycle_monotone :
    (∀ e, stepTile .obsolete e = .obsolete) ∧
    (∀ s e, s ≠ .parsed → stepTile s e = .parsed → s = .loaded ∧ e = .parseOk) ∧
    (∀ s, stepTile s .cancel = .obsolete) ∧
    (∀ s e, stepTile s e = .obsolete ∨ stateRank s ≤ stateRank (stepTile s e)) := by
  refine ⟨?_, ?_, ?_, ?_⟩
  · intro e
    cases e <;> rfl
  · intro s e
    cases s <;> cases e <;> decide
  · intro s
    cases s <;> rfl
  · intro s e
    cases s <;> cases e <;> decide

/-- C4 witness: concrete transitions exercising each conjunct: obsolete
absorbs a request, a successful parse from loaded is the way into parsed,
and cancel obsoletes a loading tile. -/
theorem c4_lifecycle_monotone_witness :
    stepTile .obsolete .request = .obsolete ∧
    (State.loaded = State.loaded ∧ Event.parseOk = Event.parseOk) ∧
    stepTile .loading .cancel = .obsolete :=
  ⟨c4_lifecycle_monotone.1 .request,
   c4_lifecycle_monotone.2.1 .loaded .parseOk (by decide) (by decide),
   c4_lifecycle_monotone.2.2.1 .loading⟩

end llmr.TileData

namespace mbgl

/-- Modelled from the spec: the body of CachingHTTPFileSource::request lives
in caching_http_file_source.cpp, which is not part of the repository
snapshot; the header declares the pending table mapping a resource key to
the shared in-flight request (caching_http_file_source.hpp line 54).  Per
specification sections 3 and 4.2, the source keeps a pending map from
normalized resource key to the shared underlying operation; the state here
records that map, a counter producing fresh operation identities, and the
list of underlying network/cache operations actually started. -/
structure FileSourceState where
  pending : List (String × Nat)
  nextId : Nat
  started : List Nat
deriving DecidableEq, Repr

/-- Modelled from the spec: CachingHTTPFileSource::request for one key
(specification section 4.2): if the key already has an in-flight entry the
caller is attached to that shared operation and no new underlying
operation starts; otherwise one fresh underlying operation is started and
recorded as pending.  The returned number identifies the shared operation
whose single outcome the caller will receive.  The pending table is
mutated only from the file source's own execution context (specification
section 5), so concurrent requests are serialized and modelled as a
sequence. -/
def request (s : FileSourceState) (key : String) : FileSourceState × Nat :=
  match s.pending.find? (fun kv => kv.1 == key) with
  | some kv => (s, kv.2)
  | none =>
    ({ pending := (key, s.nextId) :: s.pending, nextId := s.nextId + 1,
       started := s.started ++ [s.nextId] }, s.nextId)

/-- N requests for the same key issued in sequence on the source's
execution context, collecting the shared-operation identity each caller
is attached to. -/
def requestN (s : FileSourceState) (key : String) : Nat → FileSourceState × List Nat
  | 0 => (s, [])
  | n + 1 =>
    let r1 := request s key
    let r2 := requestN r1.1 key n
    (r2.1, r1.2 :: r2.2)

/-- Helper: a request for a key that is already pending attaches to the
existing shared operation and changes nothing. -/
theorem request_of_found {s : FileSourceState} {key : String} {kv : String × Nat}
    (h : s.pending.find? (fun kv => kv.1 == key) = some kv) :
    request s key = (s, kv.2) := by
  simp [request, h]

/-- Helper: repeated requests for an already pending key all return the
pending shared operation and leave the state unchanged. -/
theorem requestN_of_found {s : FileSourceState} {key : String} {kv : String × Nat}
    (h : s.pending.find? (fun kv => kv.1 == key) = some kv) :
    ∀ N, requestN s key N = (s, List.replicate N kv.2) := by
  intro N
  induction N with
  | zero => rfl
  | succ n ihn =>
    simp [requestN, request_of_found h, ihn, List.replicate_succ]

/-- C5: request coalescing.  N sequential requests for the same key hand
every caller the same shared-operation identity, start at most one new
underlying network/cache operation, and when the key was not already in
flight and N is positive they start exactly one; since all callers hold
the same operation, they all receive that operation's one outcome. -/
theorem c5_request_coalescing (s : FileSourceState) (key : String) (N : Nat) :
    ((requestN s key N).2.length = N) ∧
    (∀ h1 ∈ (requestN s key N).2, ∀ h2 ∈ (requestN s key N).2, h1 = h2) ∧
    ((requestN s key N).1.started.length ≤ s.started.length + 1) ∧
    (s.pending.find? (fun kv => kv.1 == key) = none → 1 ≤ N →
      (requestN s key N).1.started = s.started ++ [s.nextId]) := by
  rcases hf : s.pending.find? (fun kv => kv.1 == key) with _ | kv
  · cases N with
    | zero =>
      refine ⟨rfl, by simp [requestN], by simp [requestN], by omega⟩
    | succ n =>
      have hf2 : ((request s key).1).pending.find? (fun kv => kv.1 == key) =
          some (key, s.nextId) := by
        simp [request, hf]
      have hid : (request s key).2 = s.nextId := by
        simp [request, hf]
      have hst : ((request s key).1).started = s.started ++ [s.nextId] := by
        simp [request, hf]
      have hrest := requestN_of_found hf2 n
      have hcalc : requestN s key (n + 1) =
          ((request s key).1, (request s key).2 :: List.replicate n s.nextId) := by
        simp [requestN, hrest]
      refine ⟨?_, ?_, ?_, ?_⟩
      · simp [hcalc]
      · intro h1 hm1 h2 hm2
        rw [hcalc] at hm1 hm2
        simp [hid] at hm1 hm2
        rcases hm1 with rfl | ⟨-, rfl⟩ <;> rcases hm2 with rfl | ⟨-, rfl⟩ <;> rfl
      · simp [hcalc, hst]
      · intro _ _
        simp [hcalc, hst]
  · have hall := requestN_of_found hf N
    refine ⟨by simp [hall], ?_, by simp [hall], ?_⟩
    · intro h1 hm1 h2 hm2
      rw [hall] at hm1 hm2
      simp at hm1 hm2
      obtain ⟨-, rfl⟩ := hm1
      obtain ⟨-, rfl⟩ := hm2
      rfl
    · intro hnone
      rw [hf] at hnone
      cases hnone

/-- C5 witness: three requests for one fresh key on an empty source all
attach to operation 0 and exactly one underlying operation starts. -/
theorem c5_request_coalescing_witness :
    (requestN ⟨[], 0, []⟩ "k" 3).2.length = 3 ∧
    (requestN ⟨[], 0, []⟩ "k" 3).1.started = [] ++ [0] :=
  ⟨(c5_request_coalescing ⟨[], 0, []⟩ "k" 3).1,
   (c5_request_coalescing ⟨[], 0, []⟩ "k" 3).2.2.2 (by rfl) (by norm_num)⟩

/-- JSON values as far as the zoom clauses of StyleParser::parseBucket
inspect them: either a numeric member (IsNumber true, GetDouble yielding
the carried number; the carrier type is kept abstract so the model does
not depend on floating-point arithmetic) or anything else (which only
triggers a warning log). -/
inductive JSVal (α : Type) where
  | num (x : α)
  | other

/-- The zoom fields of a style bucket.  The header defining StyleBucket is
not part of the snapshot; the bucket is modelled with the min_zoom field
that style_parser.cpp writes and a max_zoom field for the maximum zoom
that the claim says is never recorded. -/
structure StyleBucket (α : Type) where
  min_zoom : α
  max_zoom : α

/-- The minzoom/maxzoom clauses of StyleParser::parseBucket
(style_parser.cpp lines 710 to 726), translated clause for clause: a
numeric minzoom member is stored into bucket min_zoom (line 713); a
numeric maxzoom member is ALSO stored into bucket min_zoom (line 722, the
code reads max_zoom.GetDouble() but assigns layer->bucket->min_zoom);
non-numeric members only produce a warning and change nothing. -/
def parseBucketZoom {α : Type} (minzoom maxzoom : Option (JSVal α))
    (b : StyleBucket α) : StyleBucket α :=
  let b1 :=
    match minzoom with
    | some (.num x) => { b with min_zoom := x }
    | some .other => b
    | none => b
  match maxzoom with
  | some (.num x) => { b1 with min_zoom := x }
  | some .other => b1
  | none => b1

/-- C10: a numeric maxzoom member is stored into the bucket's min_zoom
field, the same field a minzoom member writes, so it overwrites any
previously parsed minimum zoom, and the bucket's maximum zoom is never
recorded from the input. -/
theorem c10_maxzoom_overwrites_minzoom :
    ∀ (α : Type) (x : α) (minzoom : Option (JSVal α)) (b : StyleBucket α),
      (parseBucketZoom minzoom (some (.num x)) b).min_zoom = x ∧
      (∀ maxzoom, (parseBucketZoom minzoom maxzoom b).max_zoom = b.max_zoom) := by
  intro α x mn b
  constructor
  · cases mn with
    | none => rfl
    | some v => cases v <;> rfl
  · intro mx
    cases mn with
    | none =>
      cases mx with
      | none => rfl
      | some v => cases v <;> rfl
    | some v =>
      cases v <;> (cases mx with
        | none => rfl
        | some v2 => cases v2 <;> rfl)

end mbgl
